import Mathlib

set_option autoImplicit false

/-
Shallow embedding of the Dynamips module manager and the FrameRelaySwitch
device node of the gns3-gui excerpt (src/gns3/modules/dynamips/__init__.py and
src/gns3/modules/dynamips/nodes/frame_relay_switch.py), together with theorems
settling the specification claims about them.

Python dictionaries are embedded as insertion-ordered association lists,
Python exceptions as Option/flag results, and Qt signal emissions and server
messages as explicit event/action traces returned by the embedded operations.
-/

namespace Gns3

/-- Values held by Qt settings dictionaries and JSON-style request payloads.
The constructor nil stands for Python None. -/
inductive QVal where
  | nil
  | s (v : String)
  | i (v : Int)
  | b (v : Bool)
  deriving DecidableEq

/-- Python dictionary read d[k] over an insertion-ordered association list;
none stands for the KeyError raised when the key is absent. -/
def pyDictGet {κ α : Type} [DecidableEq κ] : List (κ × α) → κ → Option α
  | [], _ => none
  | kv :: rest, k => if kv.1 = k then some kv.2 else pyDictGet rest k

/-- Python dictionary write d[k] = v: replaces the value in place when the key
is present, appends a new entry otherwise. -/
def pyDictSet {κ α : Type} [DecidableEq κ] : List (κ × α) → κ → α → List (κ × α)
  | [], k, v => [(k, v)]
  | kv :: rest, k, v => if kv.1 = k then (k, v) :: rest else kv :: pyDictSet rest k v

/-- Python d.update(other): writes every entry of other into d, in order. -/
def pyDictUpdate {κ α : Type} [DecidableEq κ] (d other : List (κ × α)) : List (κ × α) :=
  other.foldl (fun acc kv => pyDictSet acc kv.1 kv.2) d

/-- Python list.remove(x): drops the first occurrence of x; none stands for the
ValueError raised when x is absent. -/
def removeFirst {α : Type} [DecidableEq α] : List α → α → Option (List α)
  | [], _ => none
  | y :: rest, x => if y = x then some rest else (removeFirst rest x).map (fun l => y :: l)

/-- Settings dictionaries of the Dynamips module. -/
abbrev Dict := List (String × QVal)

/-- Embeds the diff loop of Dynamips.setSettings: collects, in iteration
order, the entries of the requested settings whose value differs from the
current one; none stands for the KeyError raised when a requested key is
absent from the current settings. -/
def diffParams (cur : Dict) : Dict → Option Dict
  | [] => some []
  | kv :: rest =>
    match pyDictGet cur kv.1 with
    | none => none
    | some cv =>
      match diffParams cur rest with
      | none => none
      | some ps => some (if cv = kv.2 then ps else kv :: ps)

/-- Result of Dynamips.setSettings: the updated settings dictionary and the
dynamips.settings notifications sent, one (server, payload) pair per
send_notification call, in order. -/
structure SetSettingsResult where
  settings : Dict
  notifications : List (Nat × Dict)
  deriving DecidableEq

/-- Embeds Dynamips.setSettings: builds the changed-keys payload, sends it to
every associated server when it is nonempty, then merges the requested
settings into the current ones (the final _saveSettings persistence call
writes exactly the merged dictionary and is not modelled separately).
none stands for the KeyError raised when a requested key is absent. -/
def setSettings (cur : Dict) (servers : List Nat) (new : Dict) : Option SetSettingsResult :=
  match diffParams cur new with
  | none => none
  | some params =>
    some { settings := pyDictUpdate cur new,
           notifications :=
             if params.isEmpty then [] else servers.map (fun srv => (srv, params)) }

theorem diffParams_isSome (cur : Dict) (new : Dict)
    (hk : ∀ kv ∈ new, (pyDictGet cur kv.1).isSome) :
    ∃ ps, diffParams cur new = some ps := by
  induction new with
  | nil => exact ⟨[], rfl⟩
  | cons kv rest ih =>
    obtain ⟨cv, hcv⟩ := Option.isSome_iff_exists.mp (hk kv (List.mem_cons_self kv rest))
    obtain ⟨ps, hps⟩ := ih (fun x hx => hk x (List.mem_cons_of_mem kv hx))
    refine ⟨if cv = kv.2 then ps else kv :: ps, ?_⟩
    simp [diffParams, hcv, hps]

theorem diffParams_mem (cur : Dict) (new ps : Dict) (h : diffParams cur new = some ps) :
    ∀ x, x ∈ ps ↔ x ∈ new ∧ pyDictGet cur x.1 ≠ some x.2 := by
  induction new generalizing ps with
  | nil =>
    simp only [diffParams, Option.some.injEq] at h
    subst h; simp
  | cons kv rest ih =>
    simp only [diffParams] at h
    cases hcv : pyDictGet cur kv.1 with
    | none => rw [hcv] at h; exact absurd h (by simp)
    | some cv =>
      rw [hcv] at h
      cases hrec : diffParams cur rest with
      | none => rw [hrec] at h; exact absurd h (by simp)
      | some ps0 =>
        rw [hrec] at h
        simp only [Option.some.injEq] at h
        intro x
        have ihx := ih ps0 hrec x
        by_cases hceq : cv = kv.2
        · subst h
          simp only [if_pos hceq] at *
          rw [ihx]
          constructor
          · rintro ⟨hx, hne⟩; exact ⟨List.mem_cons_of_mem kv hx, hne⟩
          · rintro ⟨hx, hne⟩
            rcases List.mem_cons.mp hx with hxe | hxr
            · subst hxe; rw [hcv, hceq] at hne; exact absurd rfl hne
            · exact ⟨hxr, hne⟩
        · subst h
          simp only [if_neg hceq]
          constructor
          · intro hx
            rcases List.mem_cons.mp hx with hxe | hxp
            · subst hxe
              refine ⟨List.mem_cons_self x rest, ?_⟩
              rw [hcv]
              intro hcon
              exact hceq (Option.some.injEq cv x.2 ▸ hcon)
            · obtain ⟨hr, hne⟩ := ihx.mp hxp
              exact ⟨List.mem_cons_of_mem kv hr, hne⟩
          · rintro ⟨hx, hne⟩
            rcases List.mem_cons.mp hx with hxe | hxr
            · subst hxe; exact List.mem_cons_self x ps0
            · exact List.mem_cons_of_mem kv (ihx.mpr ⟨hxr, hne⟩)

/-- C1: setSettings, when every requested key is present in the current
settings, completes without raising; the resulting settings are the prior
settings updated with the request; when no requested value differs nothing is
sent; when at least one differs, every server in the list receives exactly one
notification whose payload keys are exactly the keys whose values differ from
the prior settings (never the full settings mapping). -/
theorem setSettings_diff_and_merge (cur new : Dict) (servers : List Nat)
    (hk : ∀ kv ∈ new, (pyDictGet cur kv.1).isSome) :
    ∃ r, setSettings cur servers new = some r ∧
      r.settings = pyDictUpdate cur new ∧
      ((∀ kv ∈ new, pyDictGet cur kv.1 = some kv.2) → r.notifications = []) ∧
      ((∃ kv ∈ new, pyDictGet cur kv.1 ≠ some kv.2) →
        ∃ ps, r.notifications = servers.map (fun srv => (srv, ps)) ∧
          (∀ k, (∃ v, (k, v) ∈ ps) ↔ ∃ v, (k, v) ∈ new ∧ pyDictGet cur k ≠ some v)) := by
  obtain ⟨ps, hps⟩ := diffParams_isSome cur new hk
  have hmem := diffParams_mem cur new ps hps
  refine ⟨{ settings := pyDictUpdate cur new,
            notifications :=
              if ps.isEmpty then [] else servers.map (fun srv => (srv, ps)) }, ?_, rfl, ?_, ?_⟩
  · simp [setSettings, hps]
  · intro hnone
    have : ps = [] := by
      cases hpse : ps with
      | nil => rfl
      | cons x xs =>
        have hx := (hmem x).mp (hpse ▸ List.mem_cons_self x xs)
        exact absurd (hnone x hx.1) hx.2
    simp [this]
  · rintro ⟨kv, hkv, hne⟩
    have hmem2 : kv ∈ ps := (hmem kv).mpr ⟨hkv, hne⟩
    have hne2 : ps.isEmpty = false := by
      cases ps with
      | nil => exact absurd hmem2 (List.not_mem_nil kv)
      | cons x xs => rfl
    refine ⟨ps, by simp [hne2], ?_⟩
    intro k
    constructor
    · rintro ⟨v, hv⟩
      have := (hmem (k, v)).mp hv
      exact ⟨v, this.1, this.2⟩
    · rintro ⟨v, hv, hvne⟩
      exact ⟨v, (hmem (k, v)).mpr ⟨hv, hvne⟩⟩

/-- Witness for setSettings_diff_and_merge at a concrete module state: current
settings with two keys, a request changing one of them, and two servers. -/
theorem setSettings_diff_and_merge_witness :
    (∀ kv ∈ [("ghost_ios_support", QVal.b false)],
      (pyDictGet [("path", QVal.s "dynamips"), ("ghost_ios_support", QVal.b true)] kv.1).isSome) ∧
    (∃ r, setSettings [("path", QVal.s "dynamips"), ("ghost_ios_support", QVal.b true)] [0, 1]
        [("ghost_ios_support", QVal.b false)] = some r ∧
      r.settings = pyDictUpdate [("path", QVal.s "dynamips"), ("ghost_ios_support", QVal.b true)]
        [("ghost_ios_support", QVal.b false)] ∧
      ((∀ kv ∈ [("ghost_ios_support", QVal.b false)],
          pyDictGet [("path", QVal.s "dynamips"), ("ghost_ios_support", QVal.b true)] kv.1
            = some kv.2) → r.notifications = []) ∧
      ((∃ kv ∈ [("ghost_ios_support", QVal.b false)],
          pyDictGet [("path", QVal.s "dynamips"), ("ghost_ios_support", QVal.b true)] kv.1
            ≠ some kv.2) →
        ∃ ps, r.notifications = [0, 1].map (fun srv => (srv, ps)) ∧
          (∀ k, (∃ v, (k, v) ∈ ps) ↔ ∃ v, (k, v) ∈ [("ghost_ios_support", QVal.b false)] ∧
            pyDictGet [("path", QVal.s "dynamips"), ("ghost_ios_support", QVal.b true)] k
              ≠ some v))) :=
  ⟨by decide, setSettings_diff_and_merge _ _ _ (by decide)⟩

/-- Embeds Dynamips.addServer: appends the server to the servers list and
sends the current module settings to it as a dynamips.settings notification
(returned as the second component). -/
def addServer (servers : List Nat) (curSettings : Dict) (srv : Nat) :
    List Nat × (Nat × Dict) :=
  (servers ++ [srv], (srv, curSettings))

/-- Embeds Dynamips.removeServer: Python list.remove of the server; none
stands for the ValueError raised when the server is absent. -/
def removeServer (servers : List Nat) (srv : Nat) : Option (List Nat) :=
  removeFirst servers srv

/-- Embeds the servers-list effect of Dynamips.createNode: when the local
server is connected (or connects successfully) it is registered through
addServer and a node bound to it is constructed; when the connection attempt
raises a socket error the code only prints the error and returns, leaving the
servers list unchanged. -/
def createNode (servers : List Nat) (curSettings : Dict) (localServer : Nat)
    (connectOk : Bool) : List Nat :=
  if connectOk then (addServer servers curSettings localServer).1 else servers

theorem removeFirst_count {α : Type} [DecidableEq α] (l : List α) (x : α) (hx : x ∈ l) :
    ∃ l2, removeFirst l x = some l2 ∧ l2.count x + 1 = l.count x ∧
      ∀ u, u ≠ x → l2.count u = l.count u := by
  induction l with
  | nil => cases hx
  | cons y rest ih =>
    by_cases hyx : y = x
    · subst hyx
      refine ⟨rest, by simp [removeFirst], by simp [List.count_cons_self], ?_⟩
      intro u hu
      simp [List.count_cons, hu]
    · have hxr : x ∈ rest := by
        rcases List.mem_cons.mp hx with he | hr
        · exact absurd he.symm hyx
        · exact hr
      obtain ⟨l2, h1, h2, h3⟩ := ih hxr
      refine ⟨y :: l2, ?_, ?_, ?_⟩
      · simp [removeFirst, hyx, h1]
      · have : x ≠ y := fun he => hyx he.symm
        simp [List.count_cons, this, h2]
      · intro u hu
        by_cases huy : u = y
        · subst huy
          simp [List.count_cons_self, h3 u hu]
        · have h4 : u ≠ y := huy
          simp [List.count_cons, h4, h3 u hu]

/-- C9 counterexample: from a fresh module, registering the same server twice
through addServer leaves it twice in the servers list, so the servers
collection does contain duplicate entries. -/
theorem addServer_allows_duplicate :
    (addServer (addServer [] [] 7).1 [] 7).1 = [7, 7] ∧
    (addServer (addServer [] [] 7).1 [] 7).1.count 7 = 2 := by
  exact ⟨rfl, rfl⟩

/-- C9 amended: addServer appends the server unconditionally, with no
membership check, so the same server can occur several times in the servers
list; the list grows only by appending one entry at the tail (also on the
createNode path) and shrinks only by removeServer dropping one occurrence. -/
theorem servers_append_and_remove_first (servers : List Nat) (st : Dict) (srv t : Nat) :
    (addServer servers st srv).1 = servers ++ [srv] ∧
    (addServer servers st srv).1.count srv = servers.count srv + 1 ∧
    (t ≠ srv → (addServer servers st srv).1.count t = servers.count t) ∧
    createNode servers st srv false = servers ∧
    createNode servers st srv true = servers ++ [srv] ∧
    (srv ∈ servers → ∃ l2, removeServer servers srv = some l2 ∧
      l2.count srv + 1 = servers.count srv ∧
      ∀ u, u ≠ srv → l2.count u = servers.count u) := by
  refine ⟨rfl, by simp [addServer], ?_, rfl, rfl, ?_⟩
  · intro ht
    simp [addServer, List.count_append, ht]
  · intro hmem
    exact removeFirst_count servers srv hmem

/-- Witness for servers_append_and_remove_first on a concrete list that
already holds the server to be removed. -/
theorem servers_append_and_remove_first_witness :
    (addServer [3, 5] [] 5).1 = [3, 5] ++ [5] ∧
    (addServer [3, 5] [] 5).1.count 5 = [3, 5].count 5 + 1 ∧
    ((4 : Nat) ≠ 5 → (addServer [3, 5] [] 5).1.count 4 = [3, 5].count 4) ∧
    createNode [3, 5] [] 5 false = [3, 5] ∧
    createNode [3, 5] [] 5 true = [3, 5] ++ [5] ∧
    ((5 : Nat) ∈ [3, 5] → ∃ l2, removeServer [3, 5] 5 = some l2 ∧
      l2.count 5 + 1 = [3, 5].count 5 ∧
      ∀ u, u ≠ 5 → l2.count u = [3, 5].count u) :=
  servers_append_and_remove_first [3, 5] [] 5 4

/-- One IOS image record of the Dynamips image catalog, with the field order
of the dictionary literal built in _loadIOSImages (path, image,
startup-config, platform, chassis, idlepc, ram, server). -/
structure IOSImage where
  path : String
  image : String
  startupConfig : String
  platform : String
  chassis : String
  idlepc : String
  ram : Int
  server : String
  deriving DecidableEq

/-- A QSettings key, as its list of path segments (groups, array name, array
index, value name). -/
abbrev QKey := List String

/-- The external QSettings store: an insertion-ordered association list from
keys to values. -/
abbrev QStore := List (QKey × QVal)

/-- Keys written for one catalog record by the save loop of _saveIOSImages:
inside group IOS_images, array ios_image, at the one-based array index, one
setValue call per field of the record dictionary in its insertion order. -/
def imageEntries (idx : Nat) (img : IOSImage) : List (QKey × QVal) :=
  [(["IOS_images", "ios_image", toString (idx + 1), "path"], QVal.s img.path),
   (["IOS_images", "ios_image", toString (idx + 1), "image"], QVal.s img.image),
   (["IOS_images", "ios_image", toString (idx + 1), "startup-config"], QVal.s img.startupConfig),
   (["IOS_images", "ios_image", toString (idx + 1), "platform"], QVal.s img.platform),
   (["IOS_images", "ios_image", toString (idx + 1), "chassis"], QVal.s img.chassis),
   (["IOS_images", "ios_image", toString (idx + 1), "idlepc"], QVal.s img.idlepc),
   (["IOS_images", "ios_image", toString (idx + 1), "ram"], QVal.i img.ram),
   (["IOS_images", "ios_image", toString (idx + 1), "server"], QVal.s img.server)]

/-- Entries written for the catalog records from a given start index. -/
def catalogEntries (idx : Nat) : List IOSImage → List (QKey × QVal)
  | [] => []
  | img :: rest => imageEntries idx img ++ catalogEntries (idx + 1) rest

/-- All keys written by _saveIOSImages: the array size entry written by
beginWriteArray plus one block of entries per record. -/
def arrayEntries (images : List IOSImage) : List (QKey × QVal) :=
  (["IOS_images", "ios_image", "size"], QVal.i images.length) :: catalogEntries 0 images

/-- Holds of a store entry whose key lies outside the IOS_images group, hence
survives the settings.remove of the whole group. -/
def outsideIOSGroup (kv : QKey × QVal) : Bool :=
  decide (kv.1.head? ≠ some "IOS_images")

/-- Embeds Dynamips._saveIOSImages: enters group IOS_images, removes every key
under it, then writes the size entry and every record field through setValue.
The catalog is passed as the list of the _ios_images dictionary values in
order. -/
def saveIOSImages (images : List IOSImage) (store : QStore) : QStore :=
  (arrayEntries images).foldl (fun acc kv => pyDictSet acc kv.1 kv.2)
    (store.filter outsideIOSGroup)

theorem pyDictSet_filter_out {κ α : Type} [DecidableEq κ] (p : κ × α → Bool)
    (d : List (κ × α)) (k : κ) (v : α) (hp : p (k, v) = false)
    (hkey : ∀ k2 v2 v3, p (k2, v2) = p (k2, v3)) :
    (pyDictSet d k v).filter p = d.filter p := by
  induction d with
  | nil => simp [pyDictSet, hp]
  | cons kv rest ih =>
    by_cases hk : kv.1 = k
    · have hkv : p kv = false := by
        obtain ⟨k1, v1⟩ := kv
        simp only at hk
        subst hk
        rw [hkey k1 v1 v]
        exact hp
      simp [pyDictSet, hk, List.filter_cons, hkv, hp]
    · simp [pyDictSet, hk, List.filter_cons, ih]

theorem writeAll_filter_out {κ α : Type} [DecidableEq κ] (p : κ × α → Bool)
    (es : List (κ × α)) (d : List (κ × α)) (hes : ∀ e ∈ es, p e = false)
    (hkey : ∀ k2 v2 v3, p (k2, v2) = p (k2, v3)) :
    (es.foldl (fun acc kv => pyDictSet acc kv.1 kv.2) d).filter p = d.filter p := by
  induction es generalizing d with
  | nil => rfl
  | cons e rest ih =>
    have he : p e = false := hes e (List.mem_cons_self e rest)
    have step : (pyDictSet d e.1 e.2).filter p = d.filter p := by
      refine pyDictSet_filter_out p d e.1 e.2 ?_ hkey
      cases e; exact he
    calc ((e :: rest).foldl (fun acc kv => pyDictSet acc kv.1 kv.2) d).filter p
        = (rest.foldl (fun acc kv => pyDictSet acc kv.1 kv.2) (pyDictSet d e.1 e.2)).filter p := rfl
      _ = (pyDictSet d e.1 e.2).filter p := ih (pyDictSet d e.1 e.2)
            (fun x hx => hes x (List.mem_cons_of_mem e hx))
      _ = d.filter p := step

theorem catalogEntries_inside (images : List IOSImage) (idx : Nat) :
    ∀ e ∈ catalogEntries idx images, outsideIOSGroup e = false := by
  induction images generalizing idx with
  | nil => intro e he; cases he
  | cons img rest ih =>
    intro e he
    rcases List.mem_append.mp he with h1 | h2
    · simp only [imageEntries, List.mem_cons, List.not_mem_nil, or_false] at h1
      rcases h1 with h | h | h | h | h | h | h | h <;> (subst h; simp [outsideIOSGroup])
    · exact ih (idx + 1) e h2

theorem arrayEntries_inside (images : List IOSImage) :
    ∀ e ∈ arrayEntries images, outsideIOSGroup e = false := by
  intro e he
  rcases List.mem_cons.mp he with h | h
  · subst h; simp [outsideIOSGroup]
  · exact catalogEntries_inside images 0 e h

/-- C8: saving the image catalog is idempotent: because _saveIOSImages clears
the whole IOS_images namespace before writing, saving the same catalog twice
in succession leaves the persisted store equal to the result of a single save
(no duplicated records). -/
theorem saveIOSImages_idempotent (images : List IOSImage) (store : QStore) :
    saveIOSImages images (saveIOSImages images store) = saveIOSImages images store := by
  unfold saveIOSImages
  congr 1
  have h1 : ((arrayEntries images).foldl (fun acc kv => pyDictSet acc kv.1 kv.2)
      (store.filter outsideIOSGroup)).filter outsideIOSGroup
      = (store.filter outsideIOSGroup).filter outsideIOSGroup := by
    exact writeAll_filter_out outsideIOSGroup (arrayEntries images)
      (store.filter outsideIOSGroup) (arrayEntries_inside images) (fun k2 v2 v3 => rfl)
  rw [h1, List.filter_filter]
  simp

/-- Embeds Dynamips._allocateIOSImage: linear scan of the image catalog
values in order, returning the first record whose platform field equals the
node platform; the implicit Python return None on fall-through is none. -/
def allocateIOSImage (images : List IOSImage) (platform : String) : Option IOSImage :=
  match images with
  | [] => none
  | img :: rest => if img.platform = platform then some img else allocateIOSImage rest platform

/-- The setup call issued on a node by Dynamips.setupNode. -/
inductive SetupCall where
  | withImage (path : String) (ram : Int)
  | noArgs
  deriving DecidableEq

/-- The image path literal hardcoded in Dynamips.setupNode. -/
def hardcodedImagePath : String :=
  "/home/grossmj/Documents/IOS images/c3725-adventerprisek9-mz.124-15.T14.image"

/-- Embeds Dynamips.setupNode: for a Router instance it computes
_allocateIOSImage but discards the result (the call node.setup(ios_image) is
commented out in the source) and instead calls node.setup with a hardcoded
image path and 128 MB of RAM; for a non-router node it calls node.setup with
no arguments. -/
def setupNode (images : List IOSImage) (isRouter : Bool) (platform : String) : SetupCall :=
  if isRouter then
    let _ios_image := allocateIOSImage images platform
    SetupCall.withImage hardcodedImagePath 128
  else
    SetupCall.noArgs

/-- C4: on a router node with platform c3725 and an empty image catalog, the
linear scan finds no record, yet setupNode does not call setup with no image:
it calls setup with the hardcoded image path and 128 MB of RAM, and it does so
even when the catalog holds a matching record with a different path, since the
allocated record is discarded. -/
theorem setupNode_hardcodes_image :
    allocateIOSImage [] "c3725" = none ∧
    setupNode [] true "c3725" = SetupCall.withImage hardcodedImagePath 128 ∧
    (allocateIOSImage
        [{ path := "/images/c3725.bin", image := "c3725.bin", startupConfig := "c3725.bin",
           platform := "c3725", chassis := "", idlepc := "", ram := 256, server := "local" }]
        "c3725").map IOSImage.path = some "/images/c3725.bin" ∧
    setupNode
        [{ path := "/images/c3725.bin", image := "c3725.bin", startupConfig := "c3725.bin",
           platform := "c3725", chassis := "", idlepc := "", ram := 256, server := "local" }]
        true "c3725" = SetupCall.withImage hardcodedImagePath 128 := by
  exact ⟨rfl, rfl, rfl, rfl⟩

/-- A UDP network interface object (gns3.nios.nio_udp.NIO_UDP): local port,
remote host, remote port. -/
structure NioUdp where
  lport : Int
  rhost : String
  rport : Int
  deriving DecidableEq

/-- The kinds of NIO that can be passed to addNIO; only the UDP kind is
handled by this excerpt. -/
inductive Nio where
  | udp (u : NioUdp)
  | otherKind
  deriving DecidableEq

/-- Modelled from the spec: the Port and SerialPort classes (gns3.ports) are
not part of this excerpt. Spec section 3: a port has a logical slot label, a
numeric port attribute, and an optional bound NIO where none means the port is
free; SerialPort(name) constructs a free port with that label. -/
structure Port where
  name : String
  port : Int
  nio : Option NioUdp
  deriving DecidableEq

/-- Modelled from the spec: Port.isFree holds when no NIO is bound. -/
def Port.isFree (p : Port) : Bool := p.nio.isNone

/-- Client-side state of one FrameRelaySwitch node: _frsw_id (None until the
create reply arrives), _ports, and the name and mapping entries of the
_settings dictionary. -/
structure FrswState where
  frsw_id : Option QVal
  ports : List Port
  name : QVal
  mapping : List (String × String)
  deriving DecidableEq

/-- The state built by FrameRelaySwitch.__init__. -/
def initFrsw : FrswState :=
  { frsw_id := none, ports := [], name := QVal.s "", mapping := [] }

/-- Qt signals emitted by the FrameRelaySwitch node, with their arguments. -/
inductive FrswEvent where
  | newname (name : QVal)
  | deleteLinks
  | deleted
  | errorEvent (name : QVal) (code : QVal) (message : QVal)
  | nioAttached
  deriving DecidableEq

/-- Embeds FrameRelaySwitch.setupCallback: reads response id and then
response name, stores them and emits the newname signal. The error parameter
is ignored by the source. The Boolean result flag records that a KeyError was
raised, in which case the state reflects the assignments executed before the
raising access and no signal is emitted. -/
def setupCallback (st : FrswState) (response : Dict) (error : Bool) :
    FrswState × List FrswEvent × Bool :=
  match pyDictGet response "id" with
  | none => (st, [], true)
  | some i =>
    let st2 := { st with frsw_id := some i }
    match pyDictGet response "name" with
    | none => (st2, [], true)
    | some n => ({ st2 with name := n }, [FrswEvent.newname n], false)

/-- One observable step of FrameRelaySwitch.delete, in execution order. -/
inductive Action where
  | emit (e : FrswEvent)
  | send (msgType : String) (payload : Dict)
  deriving DecidableEq

/-- Embeds FrameRelaySwitch.delete: first emits the delete_links signal so
that links are torn down client-side, then sends the dynamips.frsw.delete
message keyed by the switch id. -/
def FrswState.delete (st : FrswState) : List Action :=
  [Action.emit FrswEvent.deleteLinks,
   Action.send "dynamips.frsw.delete" [("id", st.frsw_id.getD QVal.nil)]]

/-- Embeds FrameRelaySwitch._deleteCallback: on an error reply it reads the
message and code of the result and emits the error signal with the node name;
on a success reply it emits the delete signal; the state (in particular
_frsw_id) is never modified. The Boolean flag records a KeyError raised on a
malformed error result. -/
def deleteCallback (st : FrswState) (result : Dict) (error : Bool) :
    FrswState × List FrswEvent × Bool :=
  if error then
    match pyDictGet result "message" with
    | none => (st, [], true)
    | some m =>
      match pyDictGet result "code" with
      | none => (st, [], true)
      | some c => (st, [FrswEvent.errorEvent st.name c m], false)
  else
    (st, [FrswEvent.deleted], false)

/-- The characters of a string that stand before its first colon. -/
def takeUntilColon : List Char → List Char
  | [] => []
  | c :: rest => if c = ':' then [] else c :: takeUntilColon rest

/-- The part of an endpoint string before the first colon, as computed by
split with separator colon and index 0 in the source. -/
def portLabel (str : String) : String := String.mk (takeUntilColon str.data)

/-- The endpoint labels referenced by a mapping: one source label and one
destination label per entry. -/
def mappingLabels : List (String × String) → List String
  | [] => []
  | sd :: rest => portLabel sd.1 :: portLabel sd.2 :: mappingLabels rest

/-- One iteration of the first loop of FrameRelaySwitch.update: appends the
source label and then the destination label of an entry to the accumulated
ports-to-create list, each only when not already present. -/
def ptcStep (acc : List String) (sd : String × String) : List String :=
  let sp := portLabel sd.1
  let dp := portLabel sd.2
  let acc2 := if sp ∈ acc then acc else acc ++ [sp]
  if dp ∈ acc2 then acc2 else acc2 ++ [dp]

/-- Embeds the first loop of FrameRelaySwitch.update: collects the referenced
endpoint labels in iteration order, with in-order deduplication. -/
def portsToCreate (mapping : List (String × String)) : List String :=
  mapping.foldl ptcStep []

/-- Embeds the reconciliation loop of FrameRelaySwitch.update over a copy of
the ports list: a free port is removed from the ports list; a port in use has
its name removed from the ports-to-create list, where none in the second
component stands for the ValueError raised by list.remove when the name is
absent; the first component is the ports list left behind in either case (on
the raising path the failing port and the unprocessed suffix are kept). -/
def reconcile : List Port → List String → List Port × Option (List String)
  | [], ptc => ([], some ptc)
  | p :: rest, ptc =>
    if p.isFree then reconcile rest ptc
    else
      match removeFirst ptc p.name with
      | none => (p :: rest, none)
      | some ptc2 =>
        let r := reconcile rest ptc2
        (p :: r.1, r.2)

/-- Reads a nonempty run of decimal digits left to right; none as soon as a
non-digit character appears. -/
def digitsToNatAux (acc : Nat) : List Char → Option Nat
  | [] => some acc
  | c :: rest => if c.isDigit then digitsToNatAux (acc * 10 + (c.toNat - 48)) rest else none

/-- Python int() applied to a string: an optional minus sign followed by at
least one decimal digit; none stands for the ValueError raised otherwise. -/
def pyInt (str : String) : Option Int :=
  match str.data with
  | [] => none
  | '-' :: rest =>
    match rest with
    | [] => none
    | _ => (digitsToNatAux 0 rest).map (fun n => -(n : Int))
  | l => (digitsToNatAux 0 l).map (fun n => (n : Int))

/-- Embeds the creation loop of FrameRelaySwitch.update: for each remaining
label a SerialPort is constructed and its port attribute set to int(label);
the Boolean flag records whether int() raised, in which case the ports built
before the failing label were already appended and the rest are not built. -/
def createPorts : List String → List Port × Bool
  | [] => ([], false)
  | n :: rest =>
    match pyInt n with
    | none => ([], true)
    | some k =>
      let r := createPorts rest
      ({ name := n, port := k, nio := none } :: r.1, r.2)

/-- Outcome of FrameRelaySwitch.update: ok carries the state after a normal
return, err carries the state left behind when the method raises part-way
through. -/
inductive UpdateOutcome where
  | ok (st : FrswState)
  | err (st : FrswState)
  deriving DecidableEq

/-- Embeds FrameRelaySwitch.update applied to new_settings with the given
mapping dictionary: derives the referenced labels with in-order
deduplication, removes every free port, consumes one ports-to-create
occurrence per in-use port, appends a fresh SerialPort for every remaining
label, and finally stores a copy of the new mapping; a raise anywhere leaves
the stored mapping unchanged and the ports list as mutated so far. -/
def FrswState.update (st : FrswState) (newMapping : List (String × String)) : UpdateOutcome :=
  let ptc := portsToCreate newMapping
  match reconcile st.ports ptc with
  | (ports1, none) => UpdateOutcome.err { st with ports := ports1 }
  | (ports1, some ptc2) =>
    let cr := createPorts ptc2
    if cr.2 then UpdateOutcome.err { st with ports := ports1 ++ cr.1 }
    else UpdateOutcome.ok { st with ports := ports1 ++ cr.1, mapping := newMapping }

/-- The request payload built by FrameRelaySwitch.addNIO for a UDP NIO; the
params dictionary keys are id, nio, port, lport, rhost, rport and mapping. -/
structure AddNioRequest where
  id : QVal
  nio : String
  port : Int
  lport : Int
  rhost : String
  rport : Int
  mapping : List (String × String)
  deriving DecidableEq

/-- One iteration of the mapping-restriction loop of FrameRelaySwitch.addNIO
on the params mapping dictionary: when the source label of the entry is the
port name the entry is written as it stands, and when the destination label
is the port name the reversed pair is written. -/
def addNioMappingStep (pname : String) (acc : List (String × String))
    (sd : String × String) : List (String × String) :=
  let acc2 := if portLabel sd.1 = pname then pyDictSet acc sd.1 sd.2 else acc
  if portLabel sd.2 = pname then pyDictSet acc2 sd.2 sd.1 else acc2

/-- Embeds FrameRelaySwitch.addNIO: for a UDP NIO it builds the params
payload, restricts the stored mapping to the entries touching the port
through addNioMappingStep, and sends one dynamips.frsw.add_nio message,
returned as some request; for any other NIO kind the params variable is never
assigned, so the later params access raises UnboundLocalError, modelled as
none (no message is sent). -/
def addNio (st : FrswState) (p : Port) (nio : Nio) : Option AddNioRequest :=
  match nio with
  | Nio.otherKind => none
  | Nio.udp u =>
    some { id := st.frsw_id.getD QVal.nil,
           nio := "NIO_UDP",
           port := p.port,
           lport := u.lport,
           rhost := u.rhost,
           rport := u.rport,
           mapping := st.mapping.foldl (addNioMappingStep p.name) [] }

/-- The contribution of one mapping entry to the mapping payload addNIO
builds for a port: the entry itself when its source label is the port name,
and the reversed pair when its destination label is the port name. -/
def touchedEntry (pname : String) (sd : String × String) : List (String × String) :=
  (if portLabel sd.1 = pname then [(sd.1, sd.2)] else []) ++
  (if portLabel sd.2 = pname then [(sd.2, sd.1)] else [])

/-- The mapping payload addNIO builds for a port, described entrywise. -/
def touchedMapping (pname : String) : List (String × String) → List (String × String)
  | [] => []
  | sd :: rest => touchedEntry pname sd ++ touchedMapping pname rest

/-- The restriction of a mapping to the entries that touch a port, following
the words of the specification scenario: the entries where the port appears
as source or as destination, kept exactly as they stand. -/
def mappingRestrictedTo (pname : String) (mapping : List (String × String)) :
    List (String × String) :=
  mapping.filter (fun sd => decide (portLabel sd.1 = pname) || decide (portLabel sd.2 = pname))

/-- One observable step of FrameRelaySwitch.deleteNIO, in execution order. -/
inductive NioAction where
  | detachLocal (p : Port)
  | send (msgType : String) (id : QVal) (portNumber : Int)
  deriving DecidableEq

/-- Embeds FrameRelaySwitch.deleteNIO: builds the params payload from the
switch id and the port number, sets port.nio to None client-side, and only
then sends the dynamips.frsw.delete_nio request; the result is the action
trace in execution order together with the detached port. -/
def deleteNio (st : FrswState) (p : Port) : List NioAction × Port :=
  let paramsId := st.frsw_id.getD QVal.nil
  let paramsPort := p.port
  let p2 := { p with nio := none }
  ([NioAction.detachLocal p2,
    NioAction.send "dynamips.frsw.delete_nio" paramsId paramsPort], p2)

/-- C3: the setup callback of an unprovisioned switch, invoked with the error
flag set and an error reply carrying only code and message as the transport
contract provides, does not surface the failure as an error notification: the
source ignores the error flag, the access to the id key raises a KeyError
that propagates across the callback boundary, and no signal is emitted; the
node does remain unprovisioned. -/
theorem setupCallback_swallows_error :
    setupCallback initFrsw [("code", QVal.i 500), ("message", QVal.s "create failed")] true
      = (initFrsw, [], true) ∧
    initFrsw.frsw_id = none := by
  exact ⟨rfl, rfl⟩

/-- C5: delete on a provisioned switch emits the link-teardown signal before
sending the single destroy message keyed by the switch id; the delete
callback emits the deleted signal on a success reply, and on an error reply
carrying code and message it emits the error signal with them and leaves the
state, in particular the switch id, unchanged. -/
theorem frsw_delete_protocol (st : FrswState) (i : QVal) (result : Dict) (c m : QVal)
    (hprov : st.frsw_id = some i)
    (hc : pyDictGet result "code" = some c)
    (hm : pyDictGet result "message" = some m) :
    st.delete = [Action.emit FrswEvent.deleteLinks,
      Action.send "dynamips.frsw.delete" [("id", i)]] ∧
    deleteCallback st result false = (st, [FrswEvent.deleted], false) ∧
    deleteCallback st result true = (st, [FrswEvent.errorEvent st.name c m], false) := by
  refine ⟨?_, rfl, ?_⟩
  · simp [FrswState.delete, hprov]
  · simp [deleteCallback, hc, hm]

/-- A concrete provisioned switch state used by the witnesses below. -/
def provFrsw : FrswState :=
  { frsw_id := some (QVal.i 42), ports := [], name := QVal.s "FR1", mapping := [] }

/-- A concrete error reply used by the witnesses below. -/
def errReply : Dict := [("code", QVal.i 404), ("message", QVal.s "not found")]

/-- Witness for frsw_delete_protocol on a provisioned switch and an error
reply holding a code and a message. -/
theorem frsw_delete_protocol_witness :
    provFrsw.delete
      = [Action.emit FrswEvent.deleteLinks,
         Action.send "dynamips.frsw.delete" [("id", QVal.i 42)]] ∧
    deleteCallback provFrsw errReply false = (provFrsw, [FrswEvent.deleted], false) ∧
    deleteCallback provFrsw errReply true
      = (provFrsw, [FrswEvent.errorEvent provFrsw.name (QVal.i 404) (QVal.s "not found")],
         false) :=
  frsw_delete_protocol provFrsw (QVal.i 42) errReply (QVal.i 404) (QVal.s "not found")
    rfl (by decide) (by decide)

/-- C7: deleteNIO detaches the NIO from the port client-side as the first
action of its trace, strictly before the single detach request, and that
request is keyed by the switch id and the port number. -/
theorem deleteNio_optimistic_detach (st : FrswState) (p : Port) (i : QVal)
    (hprov : st.frsw_id = some i) :
    (deleteNio st p).2.nio = none ∧
    (deleteNio st p).1 =
      [NioAction.detachLocal (deleteNio st p).2,
       NioAction.send "dynamips.frsw.delete_nio" i p.port] := by
  refine ⟨rfl, ?_⟩
  simp [deleteNio, hprov]

/-- The UDP NIO of the specification scenario. -/
def scenarioNio : NioUdp := { lport := 10001, rhost := "127.0.0.1", rport := 10002 }

/-- A concrete port named 0, bound to the scenario NIO. -/
def boundPort0 : Port := { name := "0", port := 0, nio := some scenarioNio }

/-- Witness for deleteNio_optimistic_detach on a provisioned switch and a
port bound to a UDP NIO. -/
theorem deleteNio_optimistic_detach_witness :
    (deleteNio provFrsw boundPort0).2.nio = none ∧
    (deleteNio provFrsw boundPort0).1
      = [NioAction.detachLocal (deleteNio provFrsw boundPort0).2,
         NioAction.send "dynamips.frsw.delete_nio" (QVal.i 42) boundPort0.port] :=
  deleteNio_optimistic_detach provFrsw boundPort0 (QVal.i 42) rfl

/-- C6 counterexample: on a provisioned switch whose stored mapping holds the
single entry from 1:100 to 0:200, addNIO on port 0 with the UDP NIO of the
specification scenario sends a request whose mapping is the reversed pair
from 0:200 to 1:100, which is not the restriction of the stored mapping to
the entries touching port 0. -/
theorem addNio_mapping_not_restriction :
    addNio { provFrsw with mapping := [("1:100", "0:200")] }
        { name := "0", port := 0, nio := none } (Nio.udp scenarioNio)
      = some { id := QVal.i 42, nio := "NIO_UDP", port := 0, lport := 10001,
               rhost := "127.0.0.1", rport := 10002, mapping := [("0:200", "1:100")] } ∧
    mappingRestrictedTo "0" [("1:100", "0:200")] = [("1:100", "0:200")] ∧
    ([("0:200", "1:100")] : List (String × String)) ≠ [("1:100", "0:200")] := by
  refine ⟨?_, ?_, ?_⟩ <;> decide

theorem removeFirst_subset {α : Type} [DecidableEq α] (l : List α) (x : α) (l2 : List α)
    (h : removeFirst l x = some l2) : ∀ y ∈ l2, y ∈ l := by
  induction l generalizing l2 with
  | nil => cases h
  | cons z rest ih =>
    by_cases hz : z = x
    · simp only [removeFirst, if_pos hz, Option.some.injEq] at h
      subst h
      exact fun y hy => List.mem_cons_of_mem z hy
    · simp only [removeFirst, if_neg hz] at h
      cases hrf : removeFirst rest x with
      | none => rw [hrf] at h; cases h
      | some l0 =>
        rw [hrf] at h
        simp only [Option.map_some', Option.some.injEq] at h
        subst h
        intro y hy
        rcases List.mem_cons.mp hy with he | hr
        · exact he ▸ List.mem_cons_self z rest
        · exact List.mem_cons_of_mem z (ih l0 hrf y hr)

theorem removeFirst_mem {α : Type} [DecidableEq α] (l : List α) (x : α) (l2 : List α)
    (h : removeFirst l x = some l2) : x ∈ l := by
  induction l generalizing l2 with
  | nil => cases h
  | cons z rest ih =>
    by_cases hz : z = x
    · exact hz ▸ List.mem_cons_self z rest
    · simp only [removeFirst, if_neg hz] at h
      cases hrf : removeFirst rest x with
      | none => rw [hrf] at h; cases h
      | some l0 => exact List.mem_cons_of_mem z (ih l0 hrf)

theorem removeFirst_cases {α : Type} [DecidableEq α] (l : List α) (x : α) (l2 : List α)
    (h : removeFirst l x = some l2) : ∀ y ∈ l, y ∈ l2 ∨ y = x := by
  induction l generalizing l2 with
  | nil => cases h
  | cons z rest ih =>
    by_cases hz : z = x
    · simp only [removeFirst, if_pos hz, Option.some.injEq] at h
      subst h
      intro y hy
      rcases List.mem_cons.mp hy with he | hr
      · exact Or.inr (he.trans hz)
      · exact Or.inl hr
    · simp only [removeFirst, if_neg hz] at h
      cases hrf : removeFirst rest x with
      | none => rw [hrf] at h; cases h
      | some l0 =>
        rw [hrf] at h
        simp only [Option.map_some', Option.some.injEq] at h
        subst h
        intro y hy
        rcases List.mem_cons.mp hy with he | hr
        · exact Or.inl (he ▸ List.mem_cons_self z l0)
        · rcases ih l0 hrf y hr with h0 | hx
          · exact Or.inl (List.mem_cons_of_mem z h0)
          · exact Or.inr hx

theorem mem_ptcStep (acc : List String) (sd : String × String) (x : String) :
    x ∈ ptcStep acc sd ↔ x ∈ acc ∨ x = portLabel sd.1 ∨ x = portLabel sd.2 := by
  simp only [ptcStep]
  by_cases hsp : portLabel sd.1 ∈ acc
  · rw [if_pos hsp]
    by_cases hdp : portLabel sd.2 ∈ acc
    · rw [if_pos hdp]
      constructor
      · exact fun h => Or.inl h
      · rintro (h | rfl | rfl)
        · exact h
        · exact hsp
        · exact hdp
    · rw [if_neg hdp]
      constructor
      · intro h
        rcases List.mem_append.mp h with h1 | h2
        · exact Or.inl h1
        · exact Or.inr (Or.inr (List.mem_singleton.mp h2))
      · rintro (h | rfl | rfl)
        · exact List.mem_append.mpr (Or.inl h)
        · exact List.mem_append.mpr (Or.inl hsp)
        · exact List.mem_append.mpr (Or.inr (List.mem_singleton.mpr rfl))
  · rw [if_neg hsp]
    by_cases hdp : portLabel sd.2 ∈ acc ++ [portLabel sd.1]
    · rw [if_pos hdp]
      constructor
      · intro h
        rcases List.mem_append.mp h with h1 | h2
        · exact Or.inl h1
        · exact Or.inr (Or.inl (List.mem_singleton.mp h2))
      · rintro (h | rfl | rfl)
        · exact List.mem_append.mpr (Or.inl h)
        · exact List.mem_append.mpr (Or.inr (List.mem_singleton.mpr rfl))
        · exact hdp
    · rw [if_neg hdp]
      constructor
      · intro h
        rcases List.mem_append.mp h with h1 | h2
        · rcases List.mem_append.mp h1 with h3 | h4
          · exact Or.inl h3
          · exact Or.inr (Or.inl (List.mem_singleton.mp h4))
        · exact Or.inr (Or.inr (List.mem_singleton.mp h2))
      · rintro (h | rfl | rfl)
        · exact List.mem_append.mpr (Or.inl (List.mem_append.mpr (Or.inl h)))
        · exact List.mem_append.mpr
            (Or.inl (List.mem_append.mpr (Or.inr (List.mem_singleton.mpr rfl))))
        · exact List.mem_append.mpr (Or.inr (List.mem_singleton.mpr rfl))

theorem mem_foldl_ptcStep (M : List (String × String)) (acc : List String) (x : String) :
    x ∈ M.foldl ptcStep acc ↔ x ∈ acc ∨ x ∈ mappingLabels M := by
  induction M generalizing acc with
  | nil => simp [mappingLabels]
  | cons sd rest ih =>
    calc x ∈ (sd :: rest).foldl ptcStep acc ↔ x ∈ rest.foldl ptcStep (ptcStep acc sd) :=
          Iff.rfl
      _ ↔ x ∈ ptcStep acc sd ∨ x ∈ mappingLabels rest := ih (ptcStep acc sd)
      _ ↔ (x ∈ acc ∨ x = portLabel sd.1 ∨ x = portLabel sd.2) ∨ x ∈ mappingLabels rest := by
          rw [mem_ptcStep]
      _ ↔ x ∈ acc ∨ x ∈ mappingLabels (sd :: rest) := by
          simp only [mappingLabels, List.mem_cons]
          tauto

theorem mem_portsToCreate (M : List (String × String)) (x : String) :
    x ∈ portsToCreate M ↔ x ∈ mappingLabels M := by
  rw [portsToCreate, mem_foldl_ptcStep]
  simp

theorem reconcile_ok_ports (ports : List Port) (ptc l ptc2 : _)
    (h : reconcile ports ptc = (l, some ptc2)) :
    l = ports.filter (fun p => !p.isFree) := by
  induction ports generalizing ptc l ptc2 with
  | nil =>
    simp only [reconcile, Prod.mk.injEq] at h
    simp [← h.1]
  | cons p rest ih =>
    cases hf : p.isFree with
    | true =>
      rw [reconcile] at h
      rw [if_pos hf] at h
      have := ih ptc l ptc2 h
      simp [List.filter_cons, hf, this]
    | false =>
      rw [reconcile] at h
      rw [if_neg (by simp [hf])] at h
      cases hrf : removeFirst ptc p.name with
      | none => rw [hrf] at h; simp at h
      | some ptc0 =>
        rw [hrf] at h
        dsimp only at h
        rcases hE : reconcile rest ptc0 with ⟨l0, o0⟩
        rw [hE] at h
        simp only [Prod.mk.injEq] at h
        obtain ⟨hl, ho⟩ := h
        cases o0 with
        | none => cases ho
        | some ptc1 =>
          have := ih ptc0 l0 ptc1 hE
          simp [← hl, List.filter_cons, hf, this]

theorem reconcile_ok_labels (ports : List Port) (ptc l ptc2 : _)
    (h : reconcile ports ptc = (l, some ptc2)) :
    ∀ x ∈ ptc, (∃ p ∈ l, p.name = x) ∨ x ∈ ptc2 := by
  induction ports generalizing ptc l ptc2 with
  | nil =>
    simp only [reconcile, Prod.mk.injEq] at h
    intro x hx
    exact Or.inr (Option.some.inj h.2 ▸ hx)
  | cons p rest ih =>
    cases hf : p.isFree with
    | true =>
      rw [reconcile] at h
      rw [if_pos hf] at h
      exact ih ptc l ptc2 h
    | false =>
      rw [reconcile] at h
      rw [if_neg (by simp [hf])] at h
      cases hrf : removeFirst ptc p.name with
      | none => rw [hrf] at h; simp at h
      | some ptc0 =>
        rw [hrf] at h
        dsimp only at h
        rcases hE : reconcile rest ptc0 with ⟨l0, o0⟩
        rw [hE] at h
        simp only [Prod.mk.injEq] at h
        obtain ⟨hl, ho⟩ := h
        cases o0 with
        | none => cases ho
        | some ptc1 =>
          have hrec := ih ptc0 l0 ptc1 hE
          intro x hx
          have hcase := removeFirst_cases ptc p.name ptc0 hrf x hx
          rcases hcase with hx0 | hxp
          · rcases hrec x hx0 with ⟨q, hq, hqn⟩ | hx1
            · exact Or.inl ⟨q, hl ▸ List.mem_cons_of_mem p hq, hqn⟩
            · exact Or.inr (Option.some.inj ho ▸ hx1)
          · exact Or.inl ⟨p, hl ▸ List.mem_cons_self p l0, hxp.symm⟩

theorem reconcile_ok_subset (ports : List Port) (ptc l ptc2 : _)
    (h : reconcile ports ptc = (l, some ptc2)) :
    ∀ x ∈ ptc2, x ∈ ptc := by
  induction ports generalizing ptc l ptc2 with
  | nil =>
    simp only [reconcile, Prod.mk.injEq] at h
    intro x hx
    exact Option.some.inj h.2 ▸ hx
  | cons p rest ih =>
    cases hf : p.isFree with
    | true =>
      rw [reconcile] at h
      rw [if_pos hf] at h
      exact ih ptc l ptc2 h
    | false =>
      rw [reconcile] at h
      rw [if_neg (by simp [hf])] at h
      cases hrf : removeFirst ptc p.name with
      | none => rw [hrf] at h; simp at h
      | some ptc0 =>
        rw [hrf] at h
        dsimp only at h
        rcases hE : reconcile rest ptc0 with ⟨l0, o0⟩
        rw [hE] at h
        simp only [Prod.mk.injEq] at h
        obtain ⟨hl, ho⟩ := h
        cases o0 with
        | none => cases ho
        | some ptc1 =>
          intro x hx
          have hx0 : x ∈ ptc0 := ih ptc0 l0 ptc1 hE x (Option.some.inj ho ▸ hx)
          exact removeFirst_subset ptc p.name ptc0 hrf x hx0

theorem reconcile_fail (ports : List Port) (ptc : List String)
    (h : ∃ p ∈ ports, p.isFree = false ∧ p.name ∉ ptc) :
    (reconcile ports ptc).2 = none := by
  induction ports generalizing ptc with
  | nil => obtain ⟨p, hp, _⟩ := h; cases hp
  | cons p rest ih =>
    obtain ⟨q, hq, hqf, hqn⟩ := h
    cases hf : p.isFree with
    | true =>
      rw [reconcile]
      rw [if_pos hf]
      have hqr : q ∈ rest := by
        rcases List.mem_cons.mp hq with he | hr
        · rw [he] at hqf; rw [hqf] at hf; cases hf
        · exact hr
      exact ih ptc ⟨q, hqr, hqf, hqn⟩
    | false =>
      rw [reconcile]
      rw [if_neg (by simp [hf])]
      cases hrf : removeFirst ptc p.name with
      | none => rfl
      | some ptc0 =>
        have hqr : q ∈ rest := by
          rcases List.mem_cons.mp hq with he | hr
          · exfalso
            apply hqn
            rw [he]
            exact removeFirst_mem ptc p.name ptc0 hrf
          · exact hr
        have hqn0 : q.name ∉ ptc0 :=
          fun hmem => hqn (removeFirst_subset ptc p.name ptc0 hrf q.name hmem)
        simpa using ih ptc0 ⟨q, hqr, hqf, hqn0⟩

theorem createPorts_ok (names : List String) (l : List Port)
    (h : createPorts names = (l, false)) :
    (∀ x ∈ names, ∃ p ∈ l, p.name = x) ∧ (∀ p ∈ l, p.name ∈ names) := by
  induction names generalizing l with
  | nil =>
    simp only [createPorts, Prod.mk.injEq] at h
    obtain ⟨h1, h2⟩ := h
    subst h1
    exact ⟨fun x hx => absurd hx (List.not_mem_nil x), fun p hp => absurd hp (List.not_mem_nil p)⟩
  | cons n rest ih =>
    rw [createPorts] at h
    cases hpi : pyInt n with
    | none => rw [hpi] at h; simp at h
    | some k =>
      rw [hpi] at h
      dsimp only at h
      rcases hE : createPorts rest with ⟨l0, flag⟩
      rw [hE] at h
      simp only [Prod.mk.injEq] at h
      obtain ⟨hl, hflag⟩ := h
      subst hflag
      have := ih l0 hE
      constructor
      · intro x hx
        rcases List.mem_cons.mp hx with he | hr
        · exact ⟨{ name := n, port := k, nio := none }, hl ▸ List.mem_cons_self _ l0, he.symm⟩
        · obtain ⟨p, hp, hpn⟩ := this.1 x hr
          exact ⟨p, hl ▸ List.mem_cons_of_mem _ hp, hpn⟩
      · intro p hp
        rcases List.mem_cons.mp (hl ▸ hp) with he | hr
        · rw [he]; exact List.mem_cons_self n rest
        · exact List.mem_cons_of_mem n (this.2 p hr)

/-- C2: when update on new settings with mapping M returns normally, the
ports list has been reconciled: every endpoint label appearing in M has a
port with that name, every previously free port whose name is not among the
labels of M is no longer present, and every port that carried a bound
interface before the call is still present. -/
theorem frsw_update_reconciles (st : FrswState) (M : List (String × String)) (st2 : FrswState)
    (h : st.update M = UpdateOutcome.ok st2) :
    (∀ x ∈ mappingLabels M, ∃ p ∈ st2.ports, p.name = x) ∧
    (∀ p ∈ st.ports, p.isFree = true → p.name ∉ mappingLabels M → p ∉ st2.ports) ∧
    (∀ p ∈ st.ports, p.isFree = false → p ∈ st2.ports) := by
  rw [FrswState.update] at h
  rcases hr : reconcile st.ports (portsToCreate M) with ⟨ports1, o⟩
  rw [hr] at h
  cases o with
  | none => simp at h
  | some ptc2 =>
    dsimp only at h
    rcases hc : createPorts ptc2 with ⟨cr1, flag⟩
    rw [hc] at h
    cases flag with
    | true => simp at h
    | false =>
      rw [if_neg (by simp : ¬ ((false : Bool) = true))] at h
      have hst2 : st2 = { st with ports := ports1 ++ cr1, mapping := M } := by
        cases h
        rfl
      subst hst2
      have hports1 : ports1 = st.ports.filter (fun p => !p.isFree) :=
        reconcile_ok_ports st.ports (portsToCreate M) ports1 ptc2 hr
      have hlab := reconcile_ok_labels st.ports (portsToCreate M) ports1 ptc2 hr
      have hsub := reconcile_ok_subset st.ports (portsToCreate M) ports1 ptc2 hr
      have hcr := createPorts_ok ptc2 cr1 hc
      refine ⟨?_, ?_, ?_⟩
      · intro x hx
        have hx2 : x ∈ portsToCreate M := (mem_portsToCreate M x).mpr hx
        rcases hlab x hx2 with ⟨p, hp, hpn⟩ | hx3
        · exact ⟨p, List.mem_append.mpr (Or.inl hp), hpn⟩
        · obtain ⟨p, hp, hpn⟩ := hcr.1 x hx3
          exact ⟨p, List.mem_append.mpr (Or.inr hp), hpn⟩
      · intro p hp hfree hnot hmem
        rcases List.mem_append.mp hmem with h1 | h2
        · rw [hports1] at h1
          have := (List.mem_filter.mp h1).2
          rw [hfree] at this
          cases this
        · apply hnot
          have h3 : p.name ∈ ptc2 := hcr.2 p h2
          have h4 : p.name ∈ portsToCreate M := hsub p.name h3
          exact (mem_portsToCreate M p.name).mp h4
      · intro p hp hbound
        refine List.mem_append.mpr (Or.inl ?_)
        rw [hports1]
        exact List.mem_filter.mpr ⟨hp, by rw [hbound]; rfl⟩

/-- A concrete in-use port named 1 used by the update witnesses. -/
def c2Bound : Port :=
  { name := "1", port := 1, nio := some { lport := 5000, rhost := "127.0.0.1", rport := 5001 } }

/-- A concrete switch state holding the in-use port 1 and a free port 2. -/
def c2Start : FrswState :=
  { frsw_id := some (QVal.i 1), ports := [c2Bound, { name := "2", port := 2, nio := none }],
    name := QVal.s "FR1", mapping := [] }

/-- The mapping of the update witness: one entry from 1:100 to 3:200. -/
def c2M : List (String × String) := [("1:100", "3:200")]

/-- The state after the witnessed update: port 1 kept, free port 2 removed,
port 3 created, mapping stored. -/
def c2End : FrswState :=
  { c2Start with ports := [c2Bound, { name := "3", port := 3, nio := none }], mapping := c2M }

/-- Witness for frsw_update_reconciles on a concrete update that keeps the
in-use port, drops the free one and creates the newly referenced port. -/
theorem frsw_update_reconciles_witness :
    c2Start.update c2M = UpdateOutcome.ok c2End ∧
    ((∀ x ∈ mappingLabels c2M, ∃ p ∈ c2End.ports, p.name = x) ∧
     (∀ p ∈ c2Start.ports, p.isFree = true → p.name ∉ mappingLabels c2M → p ∉ c2End.ports) ∧
     (∀ p ∈ c2Start.ports, p.isFree = false → p ∈ c2End.ports)) :=
  ⟨by decide, frsw_update_reconciles c2Start c2M c2End (by decide)⟩

/-- C10: when some in-use port of the switch has a name that is not among the
endpoint labels of the new mapping, update raises the ValueError of
list.remove and terminates part-way through: the outcome is the err state it
leaves behind, and the stored mapping is still the prior mapping. -/
theorem frsw_update_inuse_raises (st : FrswState) (M : List (String × String))
    (h : ∃ p ∈ st.ports, p.isFree = false ∧ p.name ∉ mappingLabels M) :
    ∃ st2, st.update M = UpdateOutcome.err st2 ∧ st2.mapping = st.mapping := by
  have hfail : (reconcile st.ports (portsToCreate M)).2 = none := by
    apply reconcile_fail
    obtain ⟨p, hp, hbf, hbn⟩ := h
    exact ⟨p, hp, hbf, fun hmem => hbn ((mem_portsToCreate M p.name).mp hmem)⟩
  rcases hr : reconcile st.ports (portsToCreate M) with ⟨ports1, o⟩
  rw [hr] at hfail
  dsimp only at hfail
  subst hfail
  refine ⟨{ st with ports := ports1 }, ?_, rfl⟩
  rw [FrswState.update]
  dsimp only
  rw [hr]

/-- A concrete switch state for the raising update: a free port 5 scanned
first and an in-use port 9 that no entry of the new mapping references. -/
def c10Start : FrswState :=
  { frsw_id := some (QVal.i 2),
    ports := [{ name := "5", port := 5, nio := none },
              { name := "9", port := 9,
                nio := some { lport := 6000, rhost := "127.0.0.1", rport := 6001 } }],
    name := QVal.s "FR2", mapping := [("9:1", "5:1")] }

/-- The new mapping of the raising update witness; its labels are 0 and 1,
so the in-use port 9 is unreferenced. -/
def c10M : List (String × String) := [("0:1", "1:1")]

/-- Witness for frsw_update_inuse_raises on a concrete state with an in-use
port left unreferenced by the new mapping. -/
theorem frsw_update_inuse_raises_witness :
    (∃ p ∈ c10Start.ports, p.isFree = false ∧ p.name ∉ mappingLabels c10M) ∧
    (∃ st2, c10Start.update c10M = UpdateOutcome.err st2 ∧ st2.mapping = c10Start.mapping) :=
  ⟨by decide, frsw_update_inuse_raises c10Start c10M (by decide)⟩

theorem pyDictSet_fresh {κ α : Type} [DecidableEq κ] (d : List (κ × α)) (k : κ) (v : α)
    (hk : ∀ kv ∈ d, kv.1 ≠ k) : pyDictSet d k v = d ++ [(k, v)] := by
  induction d with
  | nil => rfl
  | cons kv rest ih =>
    have h1 : kv.1 ≠ k := hk kv (List.mem_cons_self kv rest)
    rw [pyDictSet, if_neg h1, ih (fun x hx => hk x (List.mem_cons_of_mem kv hx))]
    rfl

theorem nodup_keys_disjoint {κ α : Type} (l1 l2 : List (κ × α))
    (h : ((l1 ++ l2).map Prod.fst).Nodup) :
    ∀ kv1 ∈ l1, ∀ kv2 ∈ l2, kv1.1 ≠ kv2.1 := by
  rw [List.map_append, List.nodup_append] at h
  intro kv1 h1 kv2 h2 he
  exact h.2.2 (List.mem_map_of_mem Prod.fst h1)
    (by rw [he]; exact List.mem_map_of_mem Prod.fst h2)

theorem addNioMappingStep_fresh (pname : String) (acc : List (String × String))
    (sd : String × String)
    (hnd : ((acc ++ touchedEntry pname sd).map Prod.fst).Nodup) :
    addNioMappingStep pname acc sd = acc ++ touchedEntry pname sd := by
  by_cases hs : portLabel sd.1 = pname
  · by_cases hd : portLabel sd.2 = pname
    · have hte : touchedEntry pname sd = [(sd.1, sd.2)] ++ [(sd.2, sd.1)] := by
        simp [touchedEntry, hs, hd]
      rw [hte] at hnd ⊢
      have hf1 : ∀ kv ∈ acc, kv.1 ≠ sd.1 := fun kv hkv =>
        nodup_keys_disjoint acc ([(sd.1, sd.2)] ++ [(sd.2, sd.1)]) hnd kv hkv
          (sd.1, sd.2) (by simp)
      have hnd2 : (((acc ++ [(sd.1, sd.2)]) ++ [(sd.2, sd.1)]).map Prod.fst).Nodup := by
        simpa [List.append_assoc] using hnd
      have hf2 : ∀ kv ∈ acc ++ [(sd.1, sd.2)], kv.1 ≠ sd.2 := fun kv hkv =>
        nodup_keys_disjoint (acc ++ [(sd.1, sd.2)]) [(sd.2, sd.1)] hnd2 kv hkv
          (sd.2, sd.1) (by simp)
      simp only [addNioMappingStep]
      rw [if_pos hs, if_pos hd, pyDictSet_fresh acc sd.1 sd.2 hf1,
        pyDictSet_fresh (acc ++ [(sd.1, sd.2)]) sd.2 sd.1 hf2, List.append_assoc]
    · have hte : touchedEntry pname sd = [(sd.1, sd.2)] := by
        simp [touchedEntry, hs, hd]
      rw [hte] at hnd ⊢
      have hf1 : ∀ kv ∈ acc, kv.1 ≠ sd.1 := fun kv hkv =>
        nodup_keys_disjoint acc [(sd.1, sd.2)] hnd kv hkv (sd.1, sd.2) (by simp)
      simp only [addNioMappingStep]
      rw [if_pos hs, if_neg hd, pyDictSet_fresh acc sd.1 sd.2 hf1]
  · by_cases hd : portLabel sd.2 = pname
    · have hte : touchedEntry pname sd = [(sd.2, sd.1)] := by
        simp [touchedEntry, hs, hd]
      rw [hte] at hnd ⊢
      have hf1 : ∀ kv ∈ acc, kv.1 ≠ sd.2 := fun kv hkv =>
        nodup_keys_disjoint acc [(sd.2, sd.1)] hnd kv hkv (sd.2, sd.1) (by simp)
      simp only [addNioMappingStep]
      rw [if_neg hs, if_pos hd, pyDictSet_fresh acc sd.2 sd.1 hf1]
    · have hte : touchedEntry pname sd = [] := by
        simp [touchedEntry, hs, hd]
      rw [hte]
      simp only [addNioMappingStep]
      rw [if_neg hs, if_neg hd, List.append_nil]

theorem addNioFold_touched (pname : String) (M : List (String × String))
    (acc : List (String × String))
    (hnd : ((acc ++ touchedMapping pname M).map Prod.fst).Nodup) :
    M.foldl (addNioMappingStep pname) acc = acc ++ touchedMapping pname M := by
  induction M generalizing acc with
  | nil => simp [touchedMapping]
  | cons sd rest ih =>
    have htm : touchedMapping pname (sd :: rest)
        = touchedEntry pname sd ++ touchedMapping pname rest := rfl
    rw [htm] at hnd
    have hnd1 : ((acc ++ touchedEntry pname sd).map Prod.fst).Nodup := by
      rw [← List.append_assoc, List.map_append] at hnd
      exact List.Nodup.of_append_left hnd
    have hnd2 : (((acc ++ touchedEntry pname sd) ++ touchedMapping pname rest).map
        Prod.fst).Nodup := by
      rw [← List.append_assoc] at hnd
      exact hnd
    calc (sd :: rest).foldl (addNioMappingStep pname) acc
        = rest.foldl (addNioMappingStep pname) (addNioMappingStep pname acc sd) := rfl
      _ = rest.foldl (addNioMappingStep pname) (acc ++ touchedEntry pname sd) := by
          rw [addNioMappingStep_fresh pname acc sd hnd1]
      _ = (acc ++ touchedEntry pname sd) ++ touchedMapping pname rest := ih _ hnd2
      _ = acc ++ (touchedEntry pname sd ++ touchedMapping pname rest) :=
          List.append_assoc acc (touchedEntry pname sd) (touchedMapping pname rest)
      _ = acc ++ touchedMapping pname (sd :: rest) := by rw [htm]

theorem touchedMapping_mem (pname : String) (M : List (String × String)) (a b : String) :
    (a, b) ∈ touchedMapping pname M ↔
      portLabel a = pname ∧ ((a, b) ∈ M ∨ (b, a) ∈ M) := by
  induction M with
  | nil => simp [touchedMapping]
  | cons sd rest ih =>
    obtain ⟨s, d⟩ := sd
    constructor
    · intro h
      rcases List.mem_append.mp h with h1 | h2
      · unfold touchedEntry at h1
        rcases List.mem_append.mp h1 with hA | hB
        · by_cases hs : portLabel s = pname
          · rw [if_pos hs] at hA
            have h3 := List.mem_singleton.mp hA
            injection h3 with ha hb
            subst ha
            subst hb
            exact ⟨hs, Or.inl (List.mem_cons_self _ _)⟩
          · rw [if_neg hs] at hA
            cases hA
        · by_cases hd : portLabel d = pname
          · rw [if_pos hd] at hB
            have h3 := List.mem_singleton.mp hB
            injection h3 with ha hb
            subst ha
            subst hb
            exact ⟨hd, Or.inr (List.mem_cons_self _ _)⟩
          · rw [if_neg hd] at hB
            cases hB
      · obtain ⟨hl, hm⟩ := ih.mp h2
        rcases hm with hm1 | hm2
        · exact ⟨hl, Or.inl (List.mem_cons_of_mem _ hm1)⟩
        · exact ⟨hl, Or.inr (List.mem_cons_of_mem _ hm2)⟩
    · rintro ⟨hl, hm⟩
      rcases hm with hm | hm
      · rcases List.mem_cons.mp hm with he | hr
        · injection he with ha hb
          subst ha
          subst hb
          refine List.mem_append.mpr (Or.inl ?_)
          unfold touchedEntry
          rw [if_pos hl]
          exact List.mem_append.mpr (Or.inl (List.mem_singleton.mpr rfl))
        · exact List.mem_append.mpr (Or.inr (ih.mpr ⟨hl, Or.inl hr⟩))
      · rcases List.mem_cons.mp hm with he | hr
        · injection he with ha hb
          subst ha
          subst hb
          refine List.mem_append.mpr (Or.inl ?_)
          unfold touchedEntry
          rw [if_pos hl]
          exact List.mem_append.mpr (Or.inr (List.mem_singleton.mpr rfl))
        · exact List.mem_append.mpr (Or.inr (ih.mpr ⟨hl, Or.inr hr⟩))

/-- C6 amended: addNIO on a provisioned switch with a UDP NIO sends exactly
one request, whose payload carries the switch id, the port number and the
lport, rhost and rport of the NIO; the payload mapping holds exactly the
stored entries touching the port, each kept as written when the port is its
source and reversed (destination mapped back to source) when the port is its
destination, provided the keys so inserted are pairwise distinct so that no
dictionary insertion overwrites another. -/
theorem addNio_udp_request (st : FrswState) (p : Port) (u : NioUdp) (i : QVal)
    (hprov : st.frsw_id = some i)
    (hnd : ((touchedMapping p.name st.mapping).map Prod.fst).Nodup) :
    addNio st p (Nio.udp u) =
      some { id := i, nio := "NIO_UDP", port := p.port, lport := u.lport,
             rhost := u.rhost, rport := u.rport,
             mapping := touchedMapping p.name st.mapping } ∧
    (∀ a b, (a, b) ∈ touchedMapping p.name st.mapping ↔
      portLabel a = p.name ∧ ((a, b) ∈ st.mapping ∨ (b, a) ∈ st.mapping)) := by
  have hfold : st.mapping.foldl (addNioMappingStep p.name) []
      = touchedMapping p.name st.mapping := by
    have h0 : (([] ++ touchedMapping p.name st.mapping).map Prod.fst).Nodup := by
      simpa using hnd
    simpa using addNioFold_touched p.name st.mapping [] h0
  refine ⟨?_, fun a b => touchedMapping_mem p.name st.mapping a b⟩
  simp only [addNio, hprov, hfold, Option.getD_some]

/-- A switch state for the addNIO witness: provisioned, with one mapping
entry whose source is port 0 and one whose destination is port 0. -/
def c6State : FrswState :=
  { frsw_id := some (QVal.i 42), ports := [],
    name := QVal.s "FR1", mapping := [("0:50", "2:60"), ("1:100", "0:200")] }

/-- The free port named 0 used by the addNIO witness. -/
def freePort0 : Port := { name := "0", port := 0, nio := none }

/-- Witness for addNio_udp_request on a provisioned switch whose mapping
touches port 0 once as source and once as destination. -/
theorem addNio_udp_request_witness :
    ((touchedMapping freePort0.name c6State.mapping).map Prod.fst).Nodup ∧
    (addNio c6State freePort0 (Nio.udp scenarioNio) =
      some { id := QVal.i 42, nio := "NIO_UDP", port := freePort0.port,
             lport := scenarioNio.lport, rhost := scenarioNio.rhost,
             rport := scenarioNio.rport,
             mapping := touchedMapping freePort0.name c6State.mapping } ∧
     (∀ a b, (a, b) ∈ touchedMapping freePort0.name c6State.mapping ↔
       portLabel a = freePort0.name ∧
         ((a, b) ∈ c6State.mapping ∨ (b, a) ∈ c6State.mapping))) :=
  ⟨by decide, addNio_udp_request c6State freePort0 scenarioNio (QVal.i 42) rfl (by decide)⟩

end Gns3
